import Mathlib

/-!
Verification of the EM mixture-model engine in `csb/statistics/mixtures.py`
(`GaussianMixture` and its concrete variants `SegmentMixture`,
`SegmentMixture2`, `ConformerMixture`).

Numeric tensors are modelled as functions out of `Fin`; Python floats are
modelled as elements of a linear ordered field, instantiated with the reals
for the claims about `exp`, `log` and `sqrt`, and with the rationals for
concrete evaluations.  The transcendental helpers imported from `csb.math`
(`exp`, `log`, `log_sum_exp`) are not part of the sources under `src/`; the
first two enter as function parameters (instantiated with `Real.exp` and
`Real.log` in the theorems that need their mathematics), and `log_sum_exp`
is modelled from the spec below.  The abstract methods of the class
(`calculate_delta`, `estimate_Y`, `estimate_T`, `initialize`) and the
external rigid-fit collaborator (`csb.bio.utils.fit` / `wfit`, which the
spec explicitly treats as an external capability) are function parameters,
mirroring the template-method structure of the Python class.
-/

set_option linter.unusedSectionVars false

namespace Csb

variable {P : Type} {L K N M : ℕ} {α : Type} [LinearOrderedField α]

/-- numpy `clip(x, lo, hi)`: values below `lo` become `lo`, values above
`hi` become `hi`. -/
def clip (x lo hi : α) : α := min (max x lo) hi

/-- `GaussianMixture.get_dimension(Z)`:
`3 * (int(len(Z) == self.M) * self.N + int(len(Z) == self.N) * self.M)`.
Arguments are `self.M`, `self.N` and `len(Z)`. -/
def get_dimension (Mdim Ndim lenZ : ℕ) : ℕ :=
  3 * ((if lenZ = Mdim then 1 else 0) * Ndim + (if lenZ = Ndim then 1 else 0) * Mdim)

/-- The mutable state of a `GaussianMixture` object.  `P` is the
variant-specific shape of the `(Y, R, t)` parameter block read by
`calculate_delta`, `L` the leading dimension of the responsibility
matrix `Z` (the number of atoms `N` for the segment variants, the number
of structures `M` for the conformer variant), `K` the component count.
`Ndim`/`Mdim` are the `self.N` / `self.M` attributes; `useCache` is the
`use_cache` class attribute (`True` in the source). -/
structure MixState (P : Type) (L K : ℕ) (α : Type) where
  params : P
  sigma : Fin K → α
  w : Fin K → α
  Z : Option (Fin L → Fin K → α)
  cache : Option (Fin L → Fin K → α)
  useCache : Bool
  beta : α
  Ndim : ℕ
  Mdim : ℕ

/-- State effect of `GaussianMixture.get_delta(X, update_cache)`: when
`update_cache and self.use_cache`, the cache is overwritten with
`calculate_delta(X)`; otherwise the state is untouched. -/
def getDeltaState (calcDelta : P → Fin L → Fin K → α) (s : MixState P L K α)
    (upd : Bool) : MixState P L K α :=
  if upd && s.useCache then { s with cache := some (calcDelta s.params) } else s

/-- Return value of `GaussianMixture.get_delta(X, update_cache)`: the cache
if it is not `None` (after the optional refresh), else a fresh
`calculate_delta(X)`. -/
def getDeltaVal (calcDelta : P → Fin L → Fin K → α) (s : MixState P L K α)
    (upd : Bool) : Fin L → Fin K → α :=
  match (getDeltaState calcDelta s upd).cache with
  | some D => D
  | none => calcDelta (getDeltaState calcDelta s upd).params

/-- `GaussianMixture.get_delta` as a value/state pair. -/
def getDelta (calcDelta : P → Fin L → Fin K → α) (s : MixState P L K α)
    (upd : Bool) : (Fin L → Fin K → α) × MixState P L K α :=
  (getDeltaVal calcDelta s upd, getDeltaState calcDelta s upd)

/-- `GaussianMixture.del_cache`. -/
def delCache (s : MixState P L K α) : MixState P L K α := { s with cache := none }

/-- The row maximum used by the numerically stable log-sum-exp; the true
maximum of `v` whenever `K > 0`. -/
def rowMax (v : Fin K → α) : α :=
  if h : 0 < K then
    Finset.univ.sup' (Finset.univ_nonempty_iff.mpr ⟨⟨0, h⟩⟩) v
  else 0

/-- Modelled from the spec: `csb.math.log_sum_exp` is imported by
`e_step` but its source is not under `src/`.  The spec describes it as "a
numerically stable log-sum-exp (subtract row max before exponentiating, to
avoid overflow)": the row maximum plus the logarithm of the sum of the
exponentials of the entries with the maximum subtracted. -/
def logSumExp (expF logF : α → α) (v : Fin K → α) : α :=
  rowMax v + logF (∑ k, expF (v k - rowMax v))

/-- The per-item, per-component log-posterior assembled by
`GaussianMixture.e_step` before normalization:
`beta * (-0.5*D/clip(sigma**2,1e-300,1e300) - 0.5*dim*log(sigma**2) + log(w))`,
with `D = get_delta(X)` (no cache update) and `dim = get_dimension(Z)`
(the leading dimension of `D` is `L`). -/
def eStepLogit (logF : α → α) (calcDelta : P → Fin L → Fin K → α)
    (s : MixState P L K α) : Fin L → Fin K → α :=
  fun i k =>
    s.beta * (-(1 / 2) * getDeltaVal calcDelta s false i k
        / clip (s.sigma k ^ 2) (1 / 10 ^ 300) (10 ^ 300)
      - (1 / 2) * (get_dimension s.Mdim s.Ndim L : α) * logF (s.sigma k ^ 2)
      + logF (s.w k))

/-- `GaussianMixture.e_step(X)`: returns the responsibility matrix
(each row normalized by log-sum-exp over the components, then
exponentiated) together with the state after the `del_cache()` side
effect. -/
def eStep (expF logF : α → α) (calcDelta : P → Fin L → Fin K → α)
    (s : MixState P L K α) : (Fin L → Fin K → α) × MixState P L K α :=
  (fun i k => expF (eStepLogit logF calcDelta s i k
      - logSumExp expF logF (fun k2 => eStepLogit logF calcDelta s i k2)),
   { s with cache := none })

/-- `GaussianMixture.estimate_w(Z)`: `n = sum(Z, 0); w[:] = n / sum(n)`. -/
def estimateW (Z : Fin L → Fin K → α) (s : MixState P L K α) : MixState P L K α :=
  { s with w := fun k => (∑ i, Z i k) / ∑ k2, ∑ i, Z i k2 }

/-- Class attribute `GaussianMixture.alpha_sigma = 0.0001`. -/
def alphaSigma : α := 1 / 10 ^ 4

/-- Class attribute `GaussianMixture.beta_sigma = 0.01`. -/
def betaSigma : α := 1 / 10 ^ 2

/-- `GaussianMixture.estimate_sigma(X, Z)`:
`D = get_delta(X, update_cache=True)`, `N = get_dimension(Z)`,
`alpha = N * sum(Z, 0) + alpha_sigma`, `beta = sum(Z * D, 0) + beta_sigma`,
`sigma = sqrt(beta / alpha)`; the state keeps the refreshed cache. -/
def estimateSigma (sqrtF : α → α) (calcDelta : P → Fin L → Fin K → α)
    (s : MixState P L K α) (Z : Fin L → Fin K → α) : MixState P L K α :=
  { getDeltaState calcDelta s true with
      sigma := fun k =>
        sqrtF ((∑ i, Z i k * getDeltaVal calcDelta s true i k + betaSigma)
          / ((get_dimension s.Mdim s.Ndim L : α) * (∑ i, Z i k) + alphaSigma)) }

/-- One pass of the inner loop of `GaussianMixture.m_step`:
`estimate_Y(X, Z)` followed by `estimate_T(X, Z)`.  The abstract methods
are parameters that may replace the whole `(Y, R, t)` block but, as in
the source, touch nothing else. -/
def stepYT (estY estT : (Fin L → Fin K → α) → MixState P L K α → P)
    (Z : Fin L → Fin K → α) (s : MixState P L K α) : MixState P L K α :=
  { s with params := estT Z { s with params := estY Z s } }

/-- `GaussianMixture.m_step(X, Z)`: `n_inner` repetitions of
`{estimate_Y; estimate_T}`, then `estimate_w(Z)`, then
`estimate_sigma(X, Z)`. -/
def mStep (sqrtF : α → α) (calcDelta : P → Fin L → Fin K → α)
    (estY estT : (Fin L → Fin K → α) → MixState P L K α → P) (nInner : ℕ)
    (s : MixState P L K α) (Z : Fin L → Fin K → α) : MixState P L K α :=
  estimateSigma sqrtF calcDelta (estimateW Z ((stepYT estY estT Z)^[nInner] s)) Z

/-- One E/M cycle as performed by `em` and `anneal`:
`self.Z = self.e_step(X); self.m_step(X, self.Z)`. -/
def emCycle (expF logF sqrtF : α → α) (calcDelta : P → Fin L → Fin K → α)
    (estY estT : (Fin L → Fin K → α) → MixState P L K α → P) (nInner : ℕ)
    (s : MixState P L K α) : MixState P L K α :=
  mStep sqrtF calcDelta estY estT nInner
    { (eStep expF logF calcDelta s).2 with Z := some (eStep expF logF calcDelta s).1 }
    (eStep expF logF calcDelta s).1

/-- `GaussianMixture.log_likelihood(X, Z)` (complete-data log-likelihood
with the Jeffreys prior term); `piC` stands for `numpy.pi`. -/
def logLikelihoodVal (logF : α → α) (piC : α) (calcDelta : P → Fin L → Fin K → α)
    (s : MixState P L K α) (Z : Fin L → Fin K → α) : α :=
  -(1 / 2) * (∑ i, ∑ k, Z i k * getDeltaVal calcDelta s false i k
      / clip (s.sigma k ^ 2) (1 / 10 ^ 300) (10 ^ 300))
    - (1 / 2) * (get_dimension s.Mdim s.Ndim L : α)
        * (∑ k, (∑ i, Z i k) * logF (2 * piC * s.sigma k ^ 2))
    + (∑ k, (∑ i, Z i k) * logF (s.w k))
    - (1 / 2) * (∑ k, logF (s.sigma k ^ 2))

/-- The Python 2 test `abs(LL - LL_prev) < eps` of the `em` convergence
check: a number compared to `None` with `<` is `False` in Python 2, so
the test can succeed only when `eps` is a number. -/
def ltOpt (x : α) : Option α → Bool
  | some e => decide (x < e)
  | none => false

/-- The `for i in range(n_iter)` loop of `GaussianMixture.em`, generic in
the cycle `step` and the likelihood monitor `ll`.  Arguments after `eps`:
remaining iterations, the Python loop index `i`, the state, and `LL_prev`.
Returns the final state, the number of executed E/M cycles, the number of
`log_likelihood` evaluations, and the stored likelihood trace.  The
`continue` branch is taken exactly when neither storing nor verbose output
is requested and `eps is None`; otherwise the likelihood is computed,
optionally stored, and the loop breaks when `ltOpt` succeeds, else
continues with `LL_prev` updated. -/
def emLoop {σ : Type} (step : σ → σ) (ll : σ → α) (store : Bool) (verbose : ℕ)
    (eps : Option α) : ℕ → ℕ → σ → α → σ × ℕ × ℕ × List α
  | 0, _, s, _ => (s, 0, 0, [])
  | r + 1, i, s, prev =>
    if !(store || (verbose != 0 && i % verbose == 0)) && eps.isNone then
      ((emLoop step ll store verbose eps r (i + 1) (step s) prev).1,
       (emLoop step ll store verbose eps r (i + 1) (step s) prev).2.1 + 1,
       (emLoop step ll store verbose eps r (i + 1) (step s) prev).2.2.1,
       (emLoop step ll store verbose eps r (i + 1) (step s) prev).2.2.2)
    else if ltOpt |ll (step s) - prev| eps then
      (step s, 1, 1, if store then [ll (step s)] else [])
    else
      ((emLoop step ll store verbose eps r (i + 1) (step s) (ll (step s))).1,
       (emLoop step ll store verbose eps r (i + 1) (step s) (ll (step s))).2.1 + 1,
       (emLoop step ll store verbose eps r (i + 1) (step s) (ll (step s))).2.2.1 + 1,
       (if store then [ll (step s)] else [])
         ++ (emLoop step ll store verbose eps r (i + 1) (step s) (ll (step s))).2.2.2)

/-- The value `LL_prev` holds when cycle `j` of `emLoop` runs its
convergence test, for a run in which the likelihood is evaluated on every
cycle (which is the case whenever `eps` is not `None`): the initial seed
for `j = 0`, and the likelihood of the previous cycle afterwards. -/
def emPrev {σ : Type} (step : σ → σ) (ll : σ → α) (s : σ) (prev : α) : ℕ → α
  | 0 => prev
  | j + 1 => ll (step^[j + 1] s)

/-- The likelihood monitor used by `em`: `self.log_likelihood(X, self.Z)`
(after a cycle `self.Z` is always set). -/
def llOf (logF : α → α) (piC : α) (calcDelta : P → Fin L → Fin K → α)
    (s : MixState P L K α) : α :=
  logLikelihoodVal logF piC calcDelta s (s.Z.getD fun _ _ => 0)

/-- `GaussianMixture.em(X, n_iter, verbose, initialize, store_loglikelihood,
eps)`: optional `initialize(X)`, then the iteration loop with
`LL_prev = 1e10`. -/
def em (expF logF sqrtF : α → α) (piC : α) (calcDelta : P → Fin L → Fin K → α)
    (estY estT : (Fin L → Fin K → α) → MixState P L K α → P) (nInner : ℕ)
    (initF : MixState P L K α → MixState P L K α) (nIter verbose : ℕ)
    (doInit store : Bool) (eps : Option α) (s : MixState P L K α) :
    MixState P L K α × ℕ × ℕ × List α :=
  emLoop (emCycle expF logF sqrtF calcDelta estY estT nInner)
    (llOf logF piC calcDelta) store verbose eps nIter 0
    (if doInit then initF s else s) (10 ^ 10)

/-- One iteration of the `for beta in betas` loop of
`GaussianMixture.anneal`: set `self.beta = beta`, then one E/M cycle. -/
def annealCycle (expF logF sqrtF : α → α) (calcDelta : P → Fin L → Fin K → α)
    (estY estT : (Fin L → Fin K → α) → MixState P L K α → P) (nInner : ℕ)
    (b : α) (s : MixState P L K α) : MixState P L K α :=
  emCycle expF logF sqrtF calcDelta estY estT nInner { s with beta := b }

/-- `GaussianMixture.anneal(X, betas)`.  The first statement of the method
is `self.beta = betas[0]`; on an empty schedule the subscript raises
`IndexError` before anything is assigned, modelled by `Sum.inl` carrying
the untouched state.  Otherwise `initialize(X)` runs once and every entry
of `betas` gets exactly one E/M cycle (there is no convergence check); the
second component of the `Sum.inr` payload records, in order, the `beta`
value of every executed cycle. -/
def annealRun (expF logF sqrtF : α → α) (calcDelta : P → Fin L → Fin K → α)
    (estY estT : (Fin L → Fin K → α) → MixState P L K α → P) (nInner : ℕ)
    (initF : MixState P L K α → MixState P L K α) (s : MixState P L K α) :
    List α → (MixState P L K α) ⊕ (MixState P L K α × List α)
  | [] => Sum.inl s
  | b0 :: rest =>
    Sum.inr ((b0 :: rest).foldl
      (fun pr b =>
        (annealCycle expF logF sqrtF calcDelta estY estT nInner b pr.1, pr.2 ++ [b]))
      (initF { s with beta := b0 }, []))

/-- The `(Y, R, t)` parameter block of `ConformerMixture`:
`Y` is `K×N×3`, `R` is `M×K` rotation matrices, `t` is `M×K` translation
vectors. -/
structure ConfParams (N M K : ℕ) (α : Type) where
  Y : Fin K → Fin N → Fin 3 → α
  R : Fin M → Fin K → Fin 3 → Fin 3 → α
  t : Fin M → Fin K → Fin 3 → α

/-- `dot(X[m] - t[m,k], R[m,k])`, the backtransformed coordinates of atom
`n` of structure `m` under component `k`. -/
def backTransform (X : Fin M → Fin N → Fin 3 → α)
    (R : Fin M → Fin K → Fin 3 → Fin 3 → α) (t : Fin M → Fin K → Fin 3 → α)
    (m : Fin M) (k : Fin K) (n : Fin N) (c : Fin 3) : α :=
  ∑ c2, (X m n c2 - t m k c2) * R m k c2 c

/-- `ConformerMixture.calculate_delta(X)`: the `M×K` matrix of total
squared deviations between `Y[k]` and the backtransformed structure `m`. -/
def calcDeltaConf (X : Fin M → Fin N → Fin 3 → α) (p : ConfParams N M K α) :
    Fin M → Fin K → α :=
  fun m k => ∑ n, ∑ c, (p.Y k n c - backTransform X p.R p.t m k n c) ^ 2

/-- `ConformerMixture.estimate_Y(X, Z)`:
`n = clip(sum(Z, 0), 1e-300, 1e300)`;
`Y[k] = sum(Z[m,k] * dot(X[m] - t[m,k], R[m,k]) for m) / n[k]`. -/
def conformerEstimateY (X : Fin M → Fin N → Fin 3 → α) (Z : Fin M → Fin K → α)
    (s : MixState (ConfParams N M K α) M K α) : ConfParams N M K α :=
  { s.params with
      Y := fun k n c =>
        (∑ m, Z m k * backTransform X s.params.R s.params.t m k n c)
          / clip (∑ m, Z m k) (1 / 10 ^ 300) (10 ^ 300) }

/-- numpy `argmax` over one row: the first index attaining the maximum
(indices are scanned in order and replaced only on a strictly greater
value). -/
def argmaxFirst [NeZero K] (v : Fin K → α) : Fin K :=
  (List.finRange K).foldl (fun best j => if v best < v j then j else best)
    ⟨0, Nat.pos_of_ne_zero (NeZero.ne K)⟩

/-- `ConformerMixture.clusters(X)`: a fresh `Z = self.e_step(X)` (a local
variable, not written to `self.Z`), hard assignments `c = argmax(Z, 1)`,
and per component the backtransformed copies of the structures assigned to
it; the returned state is the one left behind by `e_step`. -/
def clustersConf (expF logF : α → α) (X : Fin M → Fin N → Fin 3 → α) [NeZero K]
    (s : MixState (ConfParams N M K α) M K α) :
    (Fin K → List (Fin N → Fin 3 → α)) × MixState (ConfParams N M K α) M K α :=
  (fun k =>
    ((List.finRange M).filter
        (fun m => decide (argmaxFirst ((eStep expF logF (calcDeltaConf X) s).1 m) = k))).map
      (fun m n c => backTransform X s.params.R s.params.t m k n c),
   (eStep expF logF (calcDeltaConf X) s).2)

/-- `SegmentMixture2.estimate_Y(X, Z)`, in the order of the source:
`s = 1. / clip(sigma**2, 1e-308, 1e308)`, `n = M * dot(Z, s)`, the
accumulation over `k` of `transpose(transpose(Y_k) * Z[:,k] * s[k])` with
`Y_k = sum(dot(X[m] - t[m,k], R[m,k]) for m)`, and the final division of
row `i` by `n[i]`. -/
def seg2EstimateY (X : Fin M → Fin N → Fin 3 → α) (Z : Fin N → Fin K → α)
    (sigma : Fin K → α) (R : Fin M → Fin K → Fin 3 → Fin 3 → α)
    (t : Fin M → Fin K → Fin 3 → α) : Fin N → Fin 3 → α :=
  fun i c =>
    (∑ k, (∑ m, backTransform X R t m k i c) * Z i k
        * (1 / clip (sigma k ^ 2) (1 / 10 ^ 308) (10 ^ 308)))
      / ((M : α) * ∑ k, Z i k * (1 / clip (sigma k ^ 2) (1 / 10 ^ 308) (10 ^ 308)))

/-- The public operations of the EM workflow whose cache discipline claim
C1 is about: `e_step` (with the `self.Z` assignment of the `em` loop),
`m_step`, `get_delta`, `del_cache`, `estimate_w`, `estimate_sigma`. -/
inductive EmOp (L K : ℕ) (α : Type) where
  | estep : EmOp L K α
  | mstep : (Fin L → Fin K → α) → EmOp L K α
  | getdelta : Bool → EmOp L K α
  | delcache : EmOp L K α
  | estw : (Fin L → Fin K → α) → EmOp L K α
  | estsigma : (Fin L → Fin K → α) → EmOp L K α

/-- State effect of one `EmOp`. -/
def applyOp (expF logF sqrtF : α → α) (calcDelta : P → Fin L → Fin K → α)
    (estY estT : (Fin L → Fin K → α) → MixState P L K α → P) (nInner : ℕ) :
    EmOp L K α → MixState P L K α → MixState P L K α
  | EmOp.estep, s =>
    { (eStep expF logF calcDelta s).2 with Z := some (eStep expF logF calcDelta s).1 }
  | EmOp.mstep Z, s => mStep sqrtF calcDelta estY estT nInner s Z
  | EmOp.getdelta b, s => getDeltaState calcDelta s b
  | EmOp.delcache, s => delCache s
  | EmOp.estw Z, s => estimateW Z s
  | EmOp.estsigma Z, s => estimateSigma sqrtF calcDelta s Z

/-- Run a sequence of operations left to right. -/
def runOps (expF logF sqrtF : α → α) (calcDelta : P → Fin L → Fin K → α)
    (estY estT : (Fin L → Fin K → α) → MixState P L K α → P) (nInner : ℕ)
    (ops : List (EmOp L K α)) (s : MixState P L K α) : MixState P L K α :=
  ops.foldl (fun s op => applyOp expF logF sqrtF calcDelta estY estT nInner op s) s

/-- Cache-currency invariant of the spec: the cache, when present, equals
`calculate_delta` evaluated at the current `(Y, R, t)`. -/
def cacheOK (calcDelta : P → Fin L → Fin K → α) (s : MixState P L K α) : Prop :=
  s.cache = none ∨ s.cache = some (calcDelta s.params)

/-- Identity stand-in for the transcendental function parameters in
rational test instances (the code paths exercised there never evaluate
them on meaningful inputs). -/
def idQ : ℚ → ℚ := fun x => x

/-- Trivial `calculate_delta` of a one-component, one-item instance. -/
def cdZeroQ : Unit → Fin 1 → Fin 1 → ℚ := fun _ _ _ => 0

/-- Trivial `calculate_delta` of a one-component, one-item real instance. -/
def cdZeroR : Unit → Fin 1 → Fin 1 → ℝ := fun _ _ _ => 0

/-- A freshly constructed one-component, one-atom, one-structure state
(unit sigma and weights, empty cache, `use_cache = True`, `beta = 1`). -/
def st1Q : MixState Unit 1 1 ℚ := ⟨(), fun _ => 1, fun _ => 1, none, none, true, 1, 1, 1⟩

/-- Real twin of `st1Q`. -/
def st1R : MixState Unit 1 1 ℝ := ⟨(), fun _ => 1, fun _ => 1, none, none, true, 1, 1, 1⟩

/-- All-ones one-by-one responsibility matrix over the reals. -/
def ones11R : Fin 1 → Fin 1 → ℝ := fun _ _ => 1

/-- Trivial abstract `estimate_Y` / `estimate_T` for the `Unit` parameter
block. -/
def estUnitQ : (Fin 1 → Fin 1 → ℚ) → MixState Unit 1 1 ℚ → Unit := fun _ _ => ()

/-- Identity `initialize` stand-in. -/
def initIdQ : MixState Unit 1 1 ℚ → MixState Unit 1 1 ℚ := fun s => s

/-- Constant likelihood monitor for loop tests. -/
def llConst5 : ℕ → ℚ := fun _ => 5

/-- Counterexample ensemble: one structure, one atom, at coordinates
`(1, 1, 1)`. -/
def cexX : Fin 1 → Fin 1 → Fin 3 → ℚ := fun _ _ _ => 1

/-- Counterexample responsibilities: the single item fully assigned. -/
def cexZ : Fin 1 → Fin 1 → ℚ := fun _ _ => 1

/-- Construction-time conformer parameters: zero template, identity
rotation, zero translation (as in `GaussianMixture.__init__`). -/
def cexP0 : ConfParams 1 1 1 ℚ :=
  ⟨fun _ _ _ => 0, fun _ _ c c2 => if c = c2 then 1 else 0, fun _ _ _ => 0⟩

/-- Freshly constructed `ConformerMixture(N=1, M=1, K=1)` state. -/
def cexS0 : MixState (ConfParams 1 1 1 ℚ) 1 1 ℚ :=
  ⟨cexP0, fun _ => 1, fun _ => 1, none, none, true, 1, 1, 1⟩

/-- State after `get_delta(X, update_cache=True)`: the cache is primed at
the construction-time parameters. -/
def cexS1 : MixState (ConfParams 1 1 1 ℚ) 1 1 ℚ := getDeltaState (calcDeltaConf cexX) cexS0 true

/-- State after a subsequent standalone `estimate_Y(X, Z)`: `Y` has moved,
the cache has not been invalidated. -/
def cexS2 : MixState (ConfParams 1 1 1 ℚ) 1 1 ℚ :=
  { cexS1 with params := conformerEstimateY cexX cexZ cexS1 }

/-! Theorems.  Small structural lemmas about the state operations come
first, then the claim theorems with their witnesses and counterexamples. -/

theorem getDeltaState_params (cd : P → Fin L → Fin K → α) (s : MixState P L K α)
    (b : Bool) : (getDeltaState cd s b).params = s.params := by
  unfold getDeltaState; split <;> rfl

theorem getDeltaState_useCache (cd : P → Fin L → Fin K → α) (s : MixState P L K α)
    (b : Bool) : (getDeltaState cd s b).useCache = s.useCache := by
  unfold getDeltaState; split <;> rfl

theorem getDeltaState_beta (cd : P → Fin L → Fin K → α) (s : MixState P L K α)
    (b : Bool) : (getDeltaState cd s b).beta = s.beta := by
  unfold getDeltaState; split <;> rfl

theorem getDeltaState_cacheOK (cd : P → Fin L → Fin K → α) (s : MixState P L K α)
    (b : Bool) (h : cacheOK cd s) : cacheOK cd (getDeltaState cd s b) := by
  unfold getDeltaState; split
  · exact Or.inr rfl
  · exact h

theorem getDeltaVal_of_cacheOK (cd : P → Fin L → Fin K → α) (s : MixState P L K α)
    (b : Bool) (h : cacheOK cd s) : getDeltaVal cd s b = cd s.params := by
  unfold getDeltaVal getDeltaState
  by_cases hb : (b && s.useCache) = true
  · simp [hb]
  · rcases h with h | h <;> simp [hb, h]

theorem getDeltaVal_update_true (cd : P → Fin L → Fin K → α) (s : MixState P L K α)
    (hu : s.useCache = true) : getDeltaVal cd s true = cd s.params := by
  unfold getDeltaVal getDeltaState
  simp [hu]

theorem eStep_state (expF logF : α → α) (cd : P → Fin L → Fin K → α)
    (s : MixState P L K α) : (eStep expF logF cd s).2 = { s with cache := none } := rfl

theorem estimateSigma_cache (f : α → α) (cd : P → Fin L → Fin K → α)
    (s : MixState P L K α) (Z : Fin L → Fin K → α) (hu : s.useCache = true) :
    (estimateSigma f cd s Z).cache = some (cd s.params) := by
  show (getDeltaState cd s true).cache = some (cd s.params)
  unfold getDeltaState
  simp [hu]

theorem estimateSigma_params (f : α → α) (cd : P → Fin L → Fin K → α)
    (s : MixState P L K α) (Z : Fin L → Fin K → α) :
    (estimateSigma f cd s Z).params = s.params := by
  show (getDeltaState cd s true).params = s.params
  exact getDeltaState_params cd s true

theorem estimateSigma_useCache (f : α → α) (cd : P → Fin L → Fin K → α)
    (s : MixState P L K α) (Z : Fin L → Fin K → α) :
    (estimateSigma f cd s Z).useCache = s.useCache := by
  show (getDeltaState cd s true).useCache = s.useCache
  exact getDeltaState_useCache cd s true

theorem estimateSigma_beta (f : α → α) (cd : P → Fin L → Fin K → α)
    (s : MixState P L K α) (Z : Fin L → Fin K → α) :
    (estimateSigma f cd s Z).beta = s.beta := by
  show (getDeltaState cd s true).beta = s.beta
  exact getDeltaState_beta cd s true

theorem iterYT_cache (estY estT : (Fin L → Fin K → α) → MixState P L K α → P)
    (Z : Fin L → Fin K → α) (n : ℕ) (s : MixState P L K α) :
    ((stepYT estY estT Z)^[n] s).cache = s.cache := by
  induction n generalizing s with
  | zero => rfl
  | succ n ih =>
    rw [Function.iterate_succ_apply, ih]
    rfl

theorem iterYT_useCache (estY estT : (Fin L → Fin K → α) → MixState P L K α → P)
    (Z : Fin L → Fin K → α) (n : ℕ) (s : MixState P L K α) :
    ((stepYT estY estT Z)^[n] s).useCache = s.useCache := by
  induction n generalizing s with
  | zero => rfl
  | succ n ih =>
    rw [Function.iterate_succ_apply, ih]
    rfl

theorem iterYT_beta (estY estT : (Fin L → Fin K → α) → MixState P L K α → P)
    (Z : Fin L → Fin K → α) (n : ℕ) (s : MixState P L K α) :
    ((stepYT estY estT Z)^[n] s).beta = s.beta := by
  induction n generalizing s with
  | zero => rfl
  | succ n ih =>
    rw [Function.iterate_succ_apply, ih]
    rfl

theorem mStep_useCache (f : α → α) (cd : P → Fin L → Fin K → α)
    (estY estT : (Fin L → Fin K → α) → MixState P L K α → P) (n : ℕ)
    (s : MixState P L K α) (Z : Fin L → Fin K → α) :
    (mStep f cd estY estT n s Z).useCache = s.useCache := by
  unfold mStep
  rw [estimateSigma_useCache]
  show ((stepYT estY estT Z)^[n] s).useCache = s.useCache
  exact iterYT_useCache estY estT Z n s

theorem mStep_beta (f : α → α) (cd : P → Fin L → Fin K → α)
    (estY estT : (Fin L → Fin K → α) → MixState P L K α → P) (n : ℕ)
    (s : MixState P L K α) (Z : Fin L → Fin K → α) :
    (mStep f cd estY estT n s Z).beta = s.beta := by
  unfold mStep
  rw [estimateSigma_beta]
  show ((stepYT estY estT Z)^[n] s).beta = s.beta
  exact iterYT_beta estY estT Z n s

theorem mStep_cache (f : α → α) (cd : P → Fin L → Fin K → α)
    (estY estT : (Fin L → Fin K → α) → MixState P L K α → P) (n : ℕ)
    (s : MixState P L K α) (Z : Fin L → Fin K → α) (hu : s.useCache = true) :
    (mStep f cd estY estT n s Z).cache
      = some (cd (mStep f cd estY estT n s Z).params) := by
  unfold mStep
  have hu2 : (estimateW Z ((stepYT estY estT Z)^[n] s)).useCache = true := by
    show ((stepYT estY estT Z)^[n] s).useCache = true
    rw [iterYT_useCache]; exact hu
  rw [estimateSigma_cache _ _ _ _ hu2, estimateSigma_params]

theorem applyOp_useCache (expF logF sqrtF : α → α) (cd : P → Fin L → Fin K → α)
    (estY estT : (Fin L → Fin K → α) → MixState P L K α → P) (n : ℕ)
    (op : EmOp L K α) (s : MixState P L K α) :
    (applyOp expF logF sqrtF cd estY estT n op s).useCache = s.useCache := by
  cases op with
  | estep => rfl
  | mstep Z => exact mStep_useCache sqrtF cd estY estT n s Z
  | getdelta b => exact getDeltaState_useCache cd s b
  | delcache => rfl
  | estw Z => rfl
  | estsigma Z => exact estimateSigma_useCache sqrtF cd s Z

theorem applyOp_cacheOK (expF logF sqrtF : α → α) (cd : P → Fin L → Fin K → α)
    (estY estT : (Fin L → Fin K → α) → MixState P L K α → P) (n : ℕ)
    (op : EmOp L K α) (s : MixState P L K α)
    (hu : s.useCache = true) (h : cacheOK cd s) :
    cacheOK cd (applyOp expF logF sqrtF cd estY estT n op s) := by
  cases op with
  | estep => exact Or.inl rfl
  | mstep Z => exact Or.inr (mStep_cache sqrtF cd estY estT n s Z hu)
  | getdelta b => exact getDeltaState_cacheOK cd s b h
  | delcache => exact Or.inl rfl
  | estw Z => exact h
  | estsigma Z =>
    refine Or.inr ?_
    show (estimateSigma sqrtF cd s Z).cache = some (cd (estimateSigma sqrtF cd s Z).params)
    rw [estimateSigma_cache sqrtF cd s Z hu, estimateSigma_params]

theorem runOps_cacheOK (expF logF sqrtF : α → α) (cd : P → Fin L → Fin K → α)
    (estY estT : (Fin L → Fin K → α) → MixState P L K α → P) (n : ℕ)
    (ops : List (EmOp L K α)) (s : MixState P L K α)
    (hu : s.useCache = true) (h : cacheOK cd s) :
    (runOps expF logF sqrtF cd estY estT n ops s).useCache = true
    ∧ cacheOK cd (runOps expF logF sqrtF cd estY estT n ops s) := by
  induction ops generalizing s with
  | nil => exact ⟨hu, h⟩
  | cons op ops ih =>
    exact ih _ ((applyOp_useCache expF logF sqrtF cd estY estT n op s).trans hu)
      (applyOp_cacheOK expF logF sqrtF cd estY estT n op s hu h)

/-- C1 (counterexample): on a freshly constructed
`ConformerMixture(N=1, M=1, K=1)` whose cache has been primed by
`get_delta(X, update_cache=True)`, a standalone `estimate_Y(X, Z)` call —
a mutation of `Y` — leaves the cache non-`None` and different from
`calculate_delta` at the new `(Y, R, t)`, and the following
`get_delta(X)` returns that stale cached value, contradicting the claimed
invariant. -/
theorem stale_cache_after_estimate_Y :
    cexS2.cache ≠ none
    ∧ cexS2.cache ≠ some (calcDeltaConf cexX cexS2.params)
    ∧ getDeltaVal (calcDeltaConf cexX) cexS2 false
        ≠ calcDeltaConf cexX cexS2.params := by
  have hbt : ∀ (m k : Fin 1) (n : Fin 1) (c : Fin 3),
      backTransform cexX cexP0.R cexP0.t m k n c = 1 := by
    intro m k n c
    simp [backTransform, cexX, cexP0]
  have hclip : clip (1 : ℚ) (1 / 10 ^ 300) (10 ^ 300) = 1 := by
    unfold clip
    rw [max_eq_left (by norm_num), min_eq_left (by norm_num)]
  have hcache : cexS2.cache = some (calcDeltaConf cexX cexP0) := rfl
  have hY0 : ∀ (k n : Fin 1) (c : Fin 3), cexP0.Y k n c = 0 := fun _ _ _ => rfl
  have hold : calcDeltaConf cexX cexP0 0 0 = 3 := by
    simp only [calcDeltaConf, hbt, hY0, Fin.sum_univ_one, Fin.sum_univ_three]
    norm_num
  have hYnew : ∀ (k n : Fin 1) (c : Fin 3), cexS2.params.Y k n c = 1 := by
    intro k n c
    show (∑ m : Fin 1, cexZ m k * backTransform cexX cexP0.R cexP0.t m k n c)
        / clip (∑ m : Fin 1, cexZ m k) (1 / 10 ^ 300) (10 ^ 300) = 1
    rw [Fin.sum_univ_one, Fin.sum_univ_one, hbt]
    show (1 * 1 : ℚ) / clip (1 : ℚ) (1 / 10 ^ 300) (10 ^ 300) = 1
    rw [hclip]
    norm_num
  have hnew : calcDeltaConf cexX cexS2.params 0 0 = 0 := by
    have hR : cexS2.params.R = cexP0.R := rfl
    have ht : cexS2.params.t = cexP0.t := rfl
    simp [calcDeltaConf, hR, ht, hbt, hYnew]
  have hval : getDeltaVal (calcDeltaConf cexX) cexS2 false = calcDeltaConf cexX cexP0 := rfl
  refine ⟨?_, ?_, ?_⟩
  · rw [hcache]
    simp
  · rw [hcache]
    intro h
    have h3 := congrFun (congrFun (Option.some.inj h) 0) 0
    rw [hold, hnew] at h3
    norm_num at h3
  · intro h
    rw [hval] at h
    have h3 := congrFun (congrFun h 0) 0
    rw [hold, hnew] at h3
    norm_num at h3

/-- C1 (amended): along every sequence of `e_step`, `m_step`, `get_delta`,
`del_cache`, `estimate_w`, `estimate_sigma` operations — the EM workflow,
in which `Y`, `R`, `t` are mutated only inside `m_step`, whose final
`estimate_sigma` refreshes the cache — the cache, when present, equals
`calculate_delta` at the current `(Y, R, t)`, and `get_delta` returns the
tensor recomputed from the current parameter values, never a stale one
(given `use_cache = True`, the class default, and an initially consistent
cache as left by the constructor).  A standalone `estimate_Y` or
`estimate_T` call outside `m_step` is not covered: see the
counterexample. -/
theorem em_workflow_cache_current (expF logF sqrtF : α → α)
    (calcDelta : P → Fin L → Fin K → α)
    (estY estT : (Fin L → Fin K → α) → MixState P L K α → P) (nInner : ℕ)
    (ops : List (EmOp L K α)) (s : MixState P L K α)
    (hu : s.useCache = true) (hc : cacheOK calcDelta s) (b : Bool) :
    cacheOK calcDelta (runOps expF logF sqrtF calcDelta estY estT nInner ops s)
    ∧ getDeltaVal calcDelta (runOps expF logF sqrtF calcDelta estY estT nInner ops s) b
        = calcDelta (runOps expF logF sqrtF calcDelta estY estT nInner ops s).params := by
  obtain ⟨h1, h2⟩ := runOps_cacheOK expF logF sqrtF calcDelta estY estT nInner ops s hu hc
  exact ⟨h2, getDeltaVal_of_cacheOK _ _ b h2⟩

/-- Witness for C1 (amended) on a concrete rational instance: one
`e_step` followed by one `m_step`. -/
theorem em_workflow_cache_current_witness :
    st1Q.useCache = true ∧ cacheOK cdZeroQ st1Q
    ∧ (cacheOK cdZeroQ (runOps idQ idQ idQ cdZeroQ estUnitQ estUnitQ 1
          [EmOp.estep, EmOp.mstep fun _ _ => 1] st1Q)
      ∧ getDeltaVal cdZeroQ (runOps idQ idQ idQ cdZeroQ estUnitQ estUnitQ 1
          [EmOp.estep, EmOp.mstep fun _ _ => 1] st1Q) false
        = cdZeroQ (runOps idQ idQ idQ cdZeroQ estUnitQ estUnitQ 1
          [EmOp.estep, EmOp.mstep fun _ _ => 1] st1Q).params) :=
  ⟨rfl, Or.inl rfl,
    em_workflow_cache_current idQ idQ idQ cdZeroQ estUnitQ estUnitQ 1
      [EmOp.estep, EmOp.mstep fun _ _ => 1] st1Q rfl (Or.inl rfl) false⟩

/-- C6: `SegmentMixture2.estimate_Y(X, Z)` computes, entrywise, the
average over components `k` and structures `m` of the backtransformed
coordinates `dot(X[m] - t[m,k], R[m,k])`, weighted by
`Z[i,k] / sigma[k]^2` (with `sigma^2` clipped to `[1e-308, 1e308]`) and
normalized by `M` times the total weight `sum_k Z[i,k] / sigma[k]^2`. -/
theorem seg2_estimate_Y_precision_weighted (X : Fin M → Fin N → Fin 3 → ℝ)
    (Z : Fin N → Fin K → ℝ) (sigma : Fin K → ℝ)
    (R : Fin M → Fin K → Fin 3 → Fin 3 → ℝ) (t : Fin M → Fin K → Fin 3 → ℝ)
    (i : Fin N) (c : Fin 3) :
    seg2EstimateY X Z sigma R t i c
      = (∑ k, ∑ m, (Z i k / clip (sigma k ^ 2) (1 / 10 ^ 308) (10 ^ 308))
            * backTransform X R t m k i c)
        / ((M : ℝ) * ∑ k, Z i k / clip (sigma k ^ 2) (1 / 10 ^ 308) (10 ^ 308)) := by
  unfold seg2EstimateY
  congr 1
  · refine Finset.sum_congr rfl fun k _ => ?_
    rw [Finset.sum_mul, Finset.sum_mul]
    refine Finset.sum_congr rfl fun m _ => ?_
    ring
  · congr 1
    refine Finset.sum_congr rfl fun k _ => ?_
    rw [mul_one_div]

/-- C7: after `estimate_w(Z)` the weight vector is
`w[k] = colsum(Z)[k] / sum(Z)`; for non-negative `Z` with positive total
sum all entries are non-negative and `w` sums to 1. -/
theorem estimate_w_formula_simplex (s : MixState P L K ℝ) (Z : Fin L → Fin K → ℝ)
    (hZ : ∀ i k, 0 ≤ Z i k) (hpos : 0 < ∑ k, ∑ i, Z i k) :
    (∀ k, (estimateW Z s).w k = (∑ i, Z i k) / ∑ k2, ∑ i, Z i k2)
    ∧ (∀ k, 0 ≤ (estimateW Z s).w k)
    ∧ (∑ k, (estimateW Z s).w k) = 1 := by
  refine ⟨fun k => rfl, fun k => ?_, ?_⟩
  · show 0 ≤ (∑ i, Z i k) / ∑ k2, ∑ i, Z i k2
    exact div_nonneg (Finset.sum_nonneg fun i _ => hZ i k) (le_of_lt hpos)
  · show (∑ k, (∑ i, Z i k) / ∑ k2, ∑ i, Z i k2) = 1
    rw [← Finset.sum_div, div_self (ne_of_gt hpos)]

/-- Witness for C7: a single item fully assigned to a single component. -/
theorem estimate_w_formula_simplex_witness :
    (∀ i k : Fin 1, (0:ℝ) ≤ ones11R i k)
    ∧ (0 < ∑ k : Fin 1, ∑ i : Fin 1, ones11R i k)
    ∧ ((∀ k, (estimateW ones11R st1R).w k
          = (∑ i, ones11R i k) / ∑ k2, ∑ i, ones11R i k2)
      ∧ (∀ k, 0 ≤ (estimateW ones11R st1R).w k)
      ∧ (∑ k, (estimateW ones11R st1R).w k) = 1) :=
  ⟨fun _ _ => zero_le_one, by simp [ones11R],
    estimate_w_formula_simplex st1R ones11R (fun _ _ => zero_le_one) (by simp [ones11R])⟩

/-- C8 (counterexample): with `M = N = 1` and a `Z` of leading dimension
1, `get_dimension` returns `3*(N+M) = 6`, not `3*N = 3` as the claim
predicts for the case "leading dimension equals `M`". -/
theorem get_dimension_overlap_cex :
    get_dimension 1 1 1 = 6 ∧ get_dimension 1 1 1 ≠ 3 * 1 := by
  decide

/-- C8 (amended): `get_dimension` returns `3*N` when the leading dimension
of `Z` equals `M` only, `3*M` when it equals `N` only, `3*(N+M)` when it
equals both (possible exactly when `M = N`), and `0` when it equals
neither. -/
theorem get_dimension_cases (Mdim Ndim lenZ : ℕ) :
    get_dimension Mdim Ndim lenZ =
      if lenZ = Mdim ∧ lenZ = Ndim then 3 * (Ndim + Mdim)
      else if lenZ = Mdim then 3 * Ndim
      else if lenZ = Ndim then 3 * Mdim
      else 0 := by
  unfold get_dimension
  split_ifs <;> omega

theorem logSumExp_real (v : Fin K → ℝ) (hK : 0 < K) :
    logSumExp Real.exp Real.log v = Real.log (∑ k, Real.exp (v k)) := by
  have hne : Nonempty (Fin K) := ⟨⟨0, hK⟩⟩
  have hS : 0 < ∑ k, Real.exp (v k) :=
    Finset.sum_pos (fun k _ => Real.exp_pos _) Finset.univ_nonempty
  unfold logSumExp
  have h1 : ∀ k : Fin K, k ∈ Finset.univ →
      Real.exp (v k - rowMax v) = Real.exp (v k) / Real.exp (rowMax v) :=
    fun k _ => Real.exp_sub _ _
  rw [Finset.sum_congr rfl h1, ← Finset.sum_div,
    Real.log_div (ne_of_gt hS) (Real.exp_ne_zero _), Real.log_exp]
  ring

theorem softmax_entry_le_one (v : Fin K → ℝ) (hK : 0 < K) (k : Fin K) :
    Real.exp (v k - logSumExp Real.exp Real.log v) ≤ 1 := by
  have hne : Nonempty (Fin K) := ⟨⟨0, hK⟩⟩
  have hS : 0 < ∑ k2, Real.exp (v k2) :=
    Finset.sum_pos (fun k2 _ => Real.exp_pos _) Finset.univ_nonempty
  rw [logSumExp_real v hK, Real.exp_sub, Real.exp_log hS]
  exact div_le_one_of_le
    (Finset.single_le_sum (fun k2 _ => (Real.exp_pos (v k2)).le) (Finset.mem_univ k))
    hS.le

theorem softmax_sum_one (v : Fin K → ℝ) (hK : 0 < K) :
    (∑ k, Real.exp (v k - logSumExp Real.exp Real.log v)) = 1 := by
  have hne : Nonempty (Fin K) := ⟨⟨0, hK⟩⟩
  have hS : 0 < ∑ k2, Real.exp (v k2) :=
    Finset.sum_pos (fun k2 _ => Real.exp_pos _) Finset.univ_nonempty
  rw [logSumExp_real v hK]
  have h1 : ∀ k : Fin K, k ∈ Finset.univ →
      Real.exp (v k - Real.log (∑ k2, Real.exp (v k2)))
        = Real.exp (v k) / (∑ k2, Real.exp (v k2)) := by
    intro k _
    rw [Real.exp_sub, Real.exp_log hS]
  rw [Finset.sum_congr rfl h1, ← Finset.sum_div, div_self (ne_of_gt hS)]

/-- C3: with strictly positive `sigma` and positive `w`, each row of the
matrix returned by `e_step(X)` (the log-posterior scaled by `beta` and
normalized per row by log-sum-exp before exponentiating) lies in `[0,1]`
entrywise and sums to 1, and `e_step` invalidates the distance cache as a
side effect. -/
theorem estep_row_stochastic (calcDelta : P → Fin L → Fin K → ℝ)
    (s : MixState P L K ℝ) (hK : 0 < K) (hs : ∀ k, 0 < s.sigma k)
    (hw : ∀ k, 0 < s.w k) (i : Fin L) :
    (∀ k, 0 ≤ (eStep Real.exp Real.log calcDelta s).1 i k
       ∧ (eStep Real.exp Real.log calcDelta s).1 i k ≤ 1)
    ∧ (∑ k, (eStep Real.exp Real.log calcDelta s).1 i k) = 1
    ∧ (eStep Real.exp Real.log calcDelta s).2.cache = none := by
  refine ⟨fun k => ⟨Real.exp_nonneg _, ?_⟩, ?_, rfl⟩
  · exact softmax_entry_le_one (fun k2 => eStepLogit Real.log calcDelta s i k2) hK k
  · exact softmax_sum_one (fun k2 => eStepLogit Real.log calcDelta s i k2) hK

/-- Witness for C3 on a concrete one-component instance. -/
theorem estep_row_stochastic_witness :
    (0 < 1) ∧ (∀ k : Fin 1, 0 < st1R.sigma k) ∧ (∀ k : Fin 1, 0 < st1R.w k)
    ∧ ((∀ k, 0 ≤ (eStep Real.exp Real.log cdZeroR st1R).1 0 k
         ∧ (eStep Real.exp Real.log cdZeroR st1R).1 0 k ≤ 1)
      ∧ (∑ k, (eStep Real.exp Real.log cdZeroR st1R).1 0 k) = 1
      ∧ (eStep Real.exp Real.log cdZeroR st1R).2.cache = none) :=
  ⟨Nat.one_pos, fun _ => one_pos, fun _ => one_pos,
    estep_row_stochastic cdZeroR st1R Nat.one_pos (fun _ => one_pos) (fun _ => one_pos) 0⟩

/-- C4: for non-negative `Z`, `estimate_sigma(X, Z)` sets
`sigma[k] = sqrt((colsum(Z*D)[k] + 1e-2) / (dim*colsum(Z)[k] + 1e-4))`
with `dim = get_dimension(Z)` and `D` the squared-distance tensor
recomputed at the current parameters; the call refreshes the cache with
that tensor and leaves `(Y, R, t)` unchanged. -/
theorem estimate_sigma_posterior (calcDelta : P → Fin L → Fin K → ℝ)
    (s : MixState P L K ℝ) (Z : Fin L → Fin K → ℝ)
    (hZ : ∀ i k, 0 ≤ Z i k) (hu : s.useCache = true) :
    (∀ k, (estimateSigma Real.sqrt calcDelta s Z).sigma k
        = Real.sqrt ((∑ i, Z i k * calcDelta s.params i k + 1 / 100)
            / ((get_dimension s.Mdim s.Ndim L : ℝ) * (∑ i, Z i k) + 1 / 10000)))
    ∧ (estimateSigma Real.sqrt calcDelta s Z).cache = some (calcDelta s.params)
    ∧ (estimateSigma Real.sqrt calcDelta s Z).params = s.params := by
  refine ⟨fun k => ?_, estimateSigma_cache Real.sqrt calcDelta s Z hu,
    estimateSigma_params Real.sqrt calcDelta s Z⟩
  show Real.sqrt ((∑ i, Z i k * getDeltaVal calcDelta s true i k + betaSigma)
      / ((get_dimension s.Mdim s.Ndim L : ℝ) * (∑ i, Z i k) + alphaSigma)) = _
  rw [getDeltaVal_update_true calcDelta s hu]
  norm_num [alphaSigma, betaSigma]

/-- Witness for C4 on a concrete one-component instance. -/
theorem estimate_sigma_posterior_witness :
    (∀ i k : Fin 1, (0:ℝ) ≤ ones11R i k) ∧ st1R.useCache = true
    ∧ ((∀ k, (estimateSigma Real.sqrt cdZeroR st1R ones11R).sigma k
          = Real.sqrt ((∑ i, ones11R i k * cdZeroR st1R.params i k + 1 / 100)
              / ((get_dimension st1R.Mdim st1R.Ndim 1 : ℝ) * (∑ i, ones11R i k) + 1 / 10000)))
      ∧ (estimateSigma Real.sqrt cdZeroR st1R ones11R).cache = some (cdZeroR st1R.params)
      ∧ (estimateSigma Real.sqrt cdZeroR st1R ones11R).params = st1R.params) :=
  ⟨fun _ _ => zero_le_one, rfl,
    estimate_sigma_posterior cdZeroR st1R ones11R (fun _ _ => zero_le_one) rfl⟩

theorem emLoop_count_le {σ : Type} (step : σ → σ) (ll : σ → α) (store : Bool)
    (verbose : ℕ) (eps : Option α) (r : ℕ) :
    ∀ (i : ℕ) (s : σ) (prev : α), (emLoop step ll store verbose eps r i s prev).2.1 ≤ r := by
  induction r with
  | zero => intro i s prev; exact Nat.le_refl 0
  | succ r ih =>
    intro i s prev
    simp only [emLoop]
    split
    · exact Nat.succ_le_succ (ih (i + 1) (step s) prev)
    · split
      · exact Nat.succ_le_succ (Nat.zero_le r)
      · exact Nat.succ_le_succ (ih (i + 1) (step s) (ll (step s)))

theorem emLoop_skip_all {σ : Type} (step : σ → σ) (ll : σ → α) (r : ℕ) :
    ∀ (i : ℕ) (s : σ) (prev : α),
      (emLoop step ll false 0 none r i s prev).2.1 = r
      ∧ (emLoop step ll false 0 none r i s prev).2.2.1 = 0 := by
  induction r with
  | zero => intro i s prev; exact ⟨rfl, rfl⟩
  | succ r ih =>
    intro i s prev
    simp only [emLoop]
    rw [if_pos (by simp)]
    refine ⟨?_, ?_⟩
    · show (emLoop step ll false 0 none r (i + 1) (step s) prev).2.1 + 1 = r + 1
      rw [(ih (i + 1) (step s) prev).1]
    · show (emLoop step ll false 0 none r (i + 1) (step s) prev).2.2.1 = 0
      exact (ih (i + 1) (step s) prev).2

theorem emPrev_shift {σ : Type} (step : σ → σ) (ll : σ → α) (s : σ) (prev : α) :
    ∀ j, emPrev step ll (step s) (ll (step s)) j = emPrev step ll s prev (j + 1) := by
  intro j
  cases j with
  | zero => rfl
  | succ j => rfl

theorem emLoop_break_at {σ : Type} (step : σ → σ) (ll : σ → α) (store : Bool)
    (verbose : ℕ) (e : α) (J : ℕ) :
    ∀ (r i : ℕ) (s : σ) (prev : α), J < r
      → (∀ j < J, ¬ |ll (step^[j + 1] s) - emPrev step ll s prev j| < e)
      → |ll (step^[J + 1] s) - emPrev step ll s prev J| < e
      → (emLoop step ll store verbose (some e) r i s prev).2.1 = J + 1 := by
  induction J with
  | zero =>
    intro r i s prev hr hno hyes
    obtain ⟨r2, rfl⟩ : ∃ r2, r = r2 + 1 := ⟨r - 1, by omega⟩
    have hb : ltOpt |ll (step s) - prev| (some e) = true := decide_eq_true hyes
    simp only [emLoop]
    rw [if_neg (by simp), if_pos hb]
  | succ J ihJ =>
    intro r i s prev hr hno hyes
    obtain ⟨r2, rfl⟩ : ∃ r2, r = r2 + 1 := ⟨r - 1, by omega⟩
    have h0 : ¬ |ll (step s) - prev| < e := hno 0 (Nat.succ_pos J)
    have hb : ¬ ltOpt |ll (step s) - prev| (some e) = true :=
      fun hcontra => h0 (of_decide_eq_true hcontra)
    have hyes2 : |ll (step^[J + 1] (step s))
        - emPrev step ll (step s) (ll (step s)) J| < e := by
      rw [emPrev_shift]
      exact hyes
    have hno2 : ∀ j < J, ¬ |ll (step^[j + 1] (step s))
        - emPrev step ll (step s) (ll (step s)) j| < e := by
      intro j hj
      rw [emPrev_shift]
      exact hno (j + 1) (Nat.succ_lt_succ hj)
    have hrec := ihJ r2 (i + 1) (step s) (ll (step s)) (by omega) hno2 hyes2
    simp only [emLoop]
    rw [if_neg (by simp), if_neg hb]
    show (emLoop step ll store verbose (some e) r2 (i + 1) (step s) (ll (step s))).2.1 + 1
        = J + 1 + 1
    rw [hrec]

/-- C2: `em(X, n_iter, ...)` runs at most `n_iter` E/M cycles; with a
numeric `eps`, the likelihood is evaluated on every cycle and the loop
stops right after the first cycle at which the absolute change in the
complete-data log-likelihood from the previous value drops below `eps`;
with `eps is None` and neither `store_loglikelihood` nor verbose output
requested, the likelihood is never computed and all `n_iter` cycles
run. -/
theorem em_termination :
    (∀ (Q : Type) (L2 K2 : ℕ) (β : Type) [LinearOrderedField β]
        (expF logF sqrtF : β → β) (piC : β) (calcDelta : Q → Fin L2 → Fin K2 → β)
        (estY estT : (Fin L2 → Fin K2 → β) → MixState Q L2 K2 β → Q) (nInner : ℕ)
        (initF : MixState Q L2 K2 β → MixState Q L2 K2 β) (nIter verbose : ℕ)
        (doInit store : Bool) (eps : Option β) (s : MixState Q L2 K2 β),
      (em expF logF sqrtF piC calcDelta estY estT nInner initF nIter verbose
          doInit store eps s).2.1 ≤ nIter)
    ∧ (∀ (σ β : Type) [LinearOrderedField β] (step : σ → σ) (ll : σ → β)
        (store : Bool) (verbose : ℕ) (e : β) (J r i : ℕ) (s : σ) (prev : β),
      J < r
      → (∀ j < J, ¬ |ll (step^[j + 1] s) - emPrev step ll s prev j| < e)
      → |ll (step^[J + 1] s) - emPrev step ll s prev J| < e
      → (emLoop step ll store verbose (some e) r i s prev).2.1 = J + 1)
    ∧ (∀ (Q : Type) (L2 K2 : ℕ) (β : Type) [LinearOrderedField β]
        (expF logF sqrtF : β → β) (piC : β) (calcDelta : Q → Fin L2 → Fin K2 → β)
        (estY estT : (Fin L2 → Fin K2 → β) → MixState Q L2 K2 β → Q) (nInner : ℕ)
        (initF : MixState Q L2 K2 β → MixState Q L2 K2 β) (nIter : ℕ)
        (doInit : Bool) (s : MixState Q L2 K2 β),
      (em expF logF sqrtF piC calcDelta estY estT nInner initF nIter 0
          doInit false none s).2.1 = nIter
      ∧ (em expF logF sqrtF piC calcDelta estY estT nInner initF nIter 0
          doInit false none s).2.2.1 = 0) := by
  refine ⟨?_, ?_, ?_⟩
  · intro Q L2 K2 β inst expF logF sqrtF piC calcDelta estY estT nInner initF
      nIter verbose doInit store eps s
    exact emLoop_count_le (emCycle expF logF sqrtF calcDelta estY estT nInner)
      (llOf logF piC calcDelta) store verbose eps nIter 0
      (if doInit then initF s else s) (10 ^ 10)
  · intro σ β inst step ll store verbose e J r i s prev h1 h2 h3
    exact emLoop_break_at step ll store verbose e J r i s prev h1 h2 h3
  · intro Q L2 K2 β inst expF logF sqrtF piC calcDelta estY estT nInner initF
      nIter doInit s
    exact emLoop_skip_all (emCycle expF logF sqrtF calcDelta estY estT nInner)
      (llOf logF piC calcDelta) nIter 0 (if doInit then initF s else s) (10 ^ 10)

/-- Witness for C2: a toy loop whose likelihood is the constant 5, with
tolerance 1 and seed 0 — the change is 5 at the first cycle and 0 at the
second, so with `n_iter = 3` the loop runs exactly 2 cycles. -/
theorem em_termination_witness :
    ((1:ℕ) < 3)
    ∧ (¬ |llConst5 (Nat.succ^[0 + 1] 0) - emPrev Nat.succ llConst5 0 0 0| < 1)
    ∧ (|llConst5 (Nat.succ^[1 + 1] 0) - emPrev Nat.succ llConst5 0 0 1| < 1)
    ∧ (emLoop Nat.succ llConst5 false 0 (some 1) 3 0 0 0).2.1 = 1 + 1 := by
  refine ⟨by norm_num, ?_, ?_, ?_⟩
  · show ¬ |(5:ℚ) - 0| < 1
    norm_num
  · show |(5:ℚ) - 5| < 1
    norm_num
  · refine em_termination.2.1 ℕ ℚ Nat.succ llConst5 false 0 1 1 3 0 0 0 (by norm_num)
      (fun j hj => ?_) (by show |(5:ℚ) - 5| < 1; norm_num)
    obtain rfl : j = 0 := by omega
    show ¬ |(5:ℚ) - 0| < 1
    norm_num

theorem emCycle_beta (expF logF sqrtF : α → α) (cd : P → Fin L → Fin K → α)
    (estY estT : (Fin L → Fin K → α) → MixState P L K α → P) (n : ℕ)
    (s : MixState P L K α) :
    (emCycle expF logF sqrtF cd estY estT n s).beta = s.beta := by
  unfold emCycle
  rw [mStep_beta]
  rfl

theorem annealCycle_beta (expF logF sqrtF : α → α) (cd : P → Fin L → Fin K → α)
    (estY estT : (Fin L → Fin K → α) → MixState P L K α → P) (n : ℕ)
    (b : α) (s : MixState P L K α) :
    (annealCycle expF logF sqrtF cd estY estT n b s).beta = b := by
  unfold annealCycle
  rw [emCycle_beta]

theorem anneal_foldl_trace (expF logF sqrtF : α → α) (cd : P → Fin L → Fin K → α)
    (estY estT : (Fin L → Fin K → α) → MixState P L K α → P) (n : ℕ) :
    ∀ (l : List α) (pr : MixState P L K α × List α),
      (l.foldl (fun pr b =>
        (annealCycle expF logF sqrtF cd estY estT n b pr.1, pr.2 ++ [b])) pr).2
      = pr.2 ++ l := by
  intro l
  induction l with
  | nil => intro pr; simp
  | cons b tl ih =>
    intro pr
    rw [List.foldl_cons, ih]
    simp

theorem anneal_foldl_beta (expF logF sqrtF : α → α) (cd : P → Fin L → Fin K → α)
    (estY estT : (Fin L → Fin K → α) → MixState P L K α → P) (n : ℕ) :
    ∀ (l : List α) (h : l ≠ []) (pr : MixState P L K α × List α),
      ((l.foldl (fun pr b =>
        (annealCycle expF logF sqrtF cd estY estT n b pr.1, pr.2 ++ [b])) pr).1).beta
      = l.getLast h := by
  intro l
  induction l with
  | nil => intro h; exact absurd rfl h
  | cons b tl ih =>
    intro h pr
    cases tl with
    | nil => exact annealCycle_beta expF logF sqrtF cd estY estT n b pr.1
    | cons c tl2 =>
      rw [List.foldl_cons, ih (List.cons_ne_nil c tl2),
        List.getLast_cons (List.cons_ne_nil c tl2)]

/-- C5: for a non-empty schedule, `anneal(X, betas)` executes exactly one
E/M cycle per entry of `betas` — the trace of `beta` values of the
executed cycles is exactly `betas`, in order, with no convergence check
and no early termination. -/
theorem anneal_one_cycle_per_beta (expF logF sqrtF : α → α)
    (calcDelta : P → Fin L → Fin K → α)
    (estY estT : (Fin L → Fin K → α) → MixState P L K α → P) (nInner : ℕ)
    (initF : MixState P L K α → MixState P L K α) (s : MixState P L K α)
    (betas : List α) (h : betas ≠ []) :
    ∃ sf, annealRun expF logF sqrtF calcDelta estY estT nInner initF s betas
        = Sum.inr (sf, betas) := by
  cases betas with
  | nil => exact absurd rfl h
  | cons b0 rest =>
    refine ⟨((b0 :: rest).foldl (fun pr b =>
        (annealCycle expF logF sqrtF calcDelta estY estT nInner b pr.1, pr.2 ++ [b]))
        (initF { s with beta := b0 }, [])).1, ?_⟩
    have htr : ((b0 :: rest).foldl (fun pr b =>
        (annealCycle expF logF sqrtF calcDelta estY estT nInner b pr.1, pr.2 ++ [b]))
        (initF { s with beta := b0 }, [])).2 = b0 :: rest := by
      rw [anneal_foldl_trace]
      simp
    show Sum.inr ((b0 :: rest).foldl (fun pr b =>
        (annealCycle expF logF sqrtF calcDelta estY estT nInner b pr.1, pr.2 ++ [b]))
        (initF { s with beta := b0 }, [])) = _
    exact congrArg Sum.inr (Prod.ext rfl htr)

/-- Witness for C5: a two-entry schedule on a rational toy instance. -/
theorem anneal_one_cycle_per_beta_witness :
    ([(1:ℚ), 2] ≠ [])
    ∧ (∃ sf, annealRun idQ idQ idQ cdZeroQ estUnitQ estUnitQ 1 initIdQ st1Q [1, 2]
        = Sum.inr (sf, [1, 2])) :=
  ⟨by simp, anneal_one_cycle_per_beta idQ idQ idQ cdZeroQ estUnitQ estUnitQ 1 initIdQ
    st1Q [1, 2] (by simp)⟩

/-- C10: `anneal(X, betas)` with an empty schedule fails immediately on
the `betas[0]` subscript, before any engine state has been modified (the
`Sum.inl` error carries the untouched state); for a non-empty schedule the
final `beta` equals the last entry of `betas`. -/
theorem anneal_empty_error_and_final_beta (expF logF sqrtF : α → α)
    (calcDelta : P → Fin L → Fin K → α)
    (estY estT : (Fin L → Fin K → α) → MixState P L K α → P) (nInner : ℕ)
    (initF : MixState P L K α → MixState P L K α) (s : MixState P L K α) :
    annealRun expF logF sqrtF calcDelta estY estT nInner initF s [] = Sum.inl s
    ∧ ∀ (betas : List α) (h : betas ≠ []), ∃ sf tr,
        annealRun expF logF sqrtF calcDelta estY estT nInner initF s betas
          = Sum.inr (sf, tr) ∧ sf.beta = betas.getLast h := by
  refine ⟨rfl, ?_⟩
  intro betas h
  cases betas with
  | nil => exact absurd rfl h
  | cons b0 rest =>
    refine ⟨((b0 :: rest).foldl (fun pr b =>
        (annealCycle expF logF sqrtF calcDelta estY estT nInner b pr.1, pr.2 ++ [b]))
        (initF { s with beta := b0 }, [])).1,
      ((b0 :: rest).foldl (fun pr b =>
        (annealCycle expF logF sqrtF calcDelta estY estT nInner b pr.1, pr.2 ++ [b]))
        (initF { s with beta := b0 }, [])).2, ?_, ?_⟩
    · exact congrArg Sum.inr Prod.mk.eta.symm
    · exact anneal_foldl_beta expF logF sqrtF calcDelta estY estT nInner
        (b0 :: rest) h (initF { s with beta := b0 }, [])

/-- Witness for C10: the empty schedule errors with the untouched state,
and the schedule `[1, 2]` ends with `beta = 2`. -/
theorem anneal_empty_error_and_final_beta_witness :
    ([(1:ℚ), 2] ≠ [])
    ∧ annealRun idQ idQ idQ cdZeroQ estUnitQ estUnitQ 1 initIdQ st1Q [] = Sum.inl st1Q
    ∧ (∃ sf tr, annealRun idQ idQ idQ cdZeroQ estUnitQ estUnitQ 1 initIdQ st1Q [1, 2]
        = Sum.inr (sf, tr)
        ∧ sf.beta = ([(1:ℚ), 2]).getLast (List.cons_ne_nil 1 [2])) := by
  refine ⟨by simp, ?_, ?_⟩
  · exact (anneal_empty_error_and_final_beta idQ idQ idQ cdZeroQ estUnitQ estUnitQ 1
      initIdQ st1Q).1
  · exact (anneal_empty_error_and_final_beta idQ idQ idQ cdZeroQ estUnitQ estUnitQ 1
      initIdQ st1Q).2 [1, 2] (List.cons_ne_nil 1 [2])

/-- C9: `ConformerMixture.clusters(X)` is not read-only: it runs an
E-step internally, so the cache is emptied as a side effect, while `Y`,
`R`, `t`, `w`, `sigma` and the stored `self.Z` are left unchanged; the
hard argmax assignments come from the freshly computed responsibility
matrix `e_step(X)`, not from the stored `self.Z`. -/
theorem clusters_frame (expF logF : α → α) (X : Fin M → Fin N → Fin 3 → α)
    [NeZero K] (s : MixState (ConfParams N M K α) M K α) :
    (clustersConf expF logF X s).2 = { s with cache := none }
    ∧ (clustersConf expF logF X s).2.params = s.params
    ∧ (clustersConf expF logF X s).2.w = s.w
    ∧ (clustersConf expF logF X s).2.sigma = s.sigma
    ∧ (clustersConf expF logF X s).2.Z = s.Z
    ∧ (clustersConf expF logF X s).2.cache = none
    ∧ (clustersConf expF logF X s).1 = fun k =>
        ((List.finRange M).filter (fun m =>
          decide (argmaxFirst ((eStep expF logF (calcDeltaConf X) s).1 m) = k))).map
          (fun m n c => backTransform X s.params.R s.params.t m k n c) :=
  ⟨rfl, rfl, rfl, rfl, rfl, rfl, rfl⟩

/-- Witness for C9 on the concrete rational conformer instance. -/
theorem clusters_frame_witness :
    (clustersConf idQ idQ cexX cexS0).2 = { cexS0 with cache := none }
    ∧ (clustersConf idQ idQ cexX cexS0).2.params = cexS0.params
    ∧ (clustersConf idQ idQ cexX cexS0).2.w = cexS0.w
    ∧ (clustersConf idQ idQ cexX cexS0).2.sigma = cexS0.sigma
    ∧ (clustersConf idQ idQ cexX cexS0).2.Z = cexS0.Z
    ∧ (clustersConf idQ idQ cexX cexS0).2.cache = none
    ∧ (clustersConf idQ idQ cexX cexS0).1 = fun k =>
        ((List.finRange 1).filter (fun m =>
          decide (argmaxFirst ((eStep idQ idQ (calcDeltaConf cexX) cexS0).1 m) = k))).map
          (fun m n c => backTransform cexX cexS0.params.R cexS0.params.t m k n c) :=
  clusters_frame idQ idQ cexX cexS0

end Csb
